import Mathlib

/-!
Verification of the test-utility module `optimum/utils/testing_utils.py`:
the parameter grid generator `grid_parameters` and the dictionary
flattening helper `flatten_dict`.

Python values are modelled by an arbitrary type `α` together with
`strOf : α → String` (the built-in `str`) and `inj : String → α`
(the inclusion of string objects into the universe of values); the
concrete instance `PyVal` below covers the integer/string values used
in the spec's examples.  A Python `dict` is modelled as an association
list in insertion order; assignment `d[k] = v` keeps the position of an
existing key and overwrites its value, and appends otherwise, which is
exactly CPython's behaviour.

The generator is lazy in Python; a run is modelled as the pair of the
list of items it yields and a flag that is `true` when iteration is
aborted by an `IndexError` (the positional lookup `params[i]` in the
`yield_dict` branch).
-/

namespace TestingUtils

/-- Python `d[k] = v` on an insertion-ordered dict represented as an
association list: overwrite in place if the key is present, append
otherwise. -/
def dictInsert {β : Type} : List (String × β) → String → β → List (String × β)
  | [], k, v => [(k, v)]
  | (k', v') :: rest, k, v =>
    if k' = k then (k', v) :: rest else (k', v') :: dictInsert rest k v

/-- Python `d[k]` lookup (first entry with the key; entries built by
`dictInsert` have unique keys). -/
def dictGet {β : Type} (d : List (String × β)) (k : String) : Option β :=
  (d.find? (fun kv => kv.1 == k)).map Prod.snd

/-- The value associated with the LAST occurrence of a key in a raw
item list; `none` when the key does not occur.  This is the value the
Python `dict(items)` constructor retains for that key. -/
def lastGet {β : Type} : List (String × β) → String → Option β
  | [], _ => none
  | kv :: rest, k =>
    match lastGet rest k with
    | some v => some v
    | none => if kv.1 = k then some kv.2 else none

/-- Python `dict(items)`: fold the item list through dict assignment,
starting from the empty dict. -/
def dictOf {β : Type} (items : List (String × β)) : List (String × β) :=
  items.foldl (fun d kv => dictInsert d kv.1 kv.2) []

/-- `itertools.product` over a list of factors, leftmost factor varying
slowest; `product [] = [[]]` just as `itertools.product()` yields one
empty tuple. -/
def product {α : Type} : List (List α) → List (List α)
  | [] => [[]]
  | l :: rest => l.flatMap (fun x => (product rest).map (fun xs => x :: xs))

/-- `"_".join([str(param) for param in params])`. -/
def testName {α : Type} (strOf : α → String) (params : List α) : String :=
  String.intercalate "_" (params.map strOf)

/-- The loop `for i, key in enumerate(parameters.keys()): res_dict[key] =
params[i]`, starting at index `i` with the dict built so far; `none`
models the `IndexError` raised when `params` is too short. -/
def buildDictAux {α : Type} :
    List String → List α → Nat → List (String × α) → Option (List (String × α))
  | [], _, _, acc => some acc
  | k :: ks, params, i, acc =>
    match params.get? i with
    | none => none
    | some v => buildDictAux ks params (i + 1) (dictInsert acc k v)

/-- The whole key/value assignment loop of the `yield_dict` branch. -/
def buildDictPy {α : Type} (keys : List String) (params : List α) :
    Option (List (String × α)) :=
  buildDictAux keys params 0 []

/-- One item of the generated grid: a list of sampled values
(`yield_dict=False`) or a dict (`yield_dict=True`). -/
inductive GridItem (α : Type) where
  | list (elems : List α)
  | dict (entries : List (String × α))
deriving DecidableEq, Repr

/-- What the loop body does with one raw combination: skip it, yield an
item, or abort with `IndexError`. -/
inductive StepRes (α : Type) where
  | drop
  | emit (it : GridItem α)
  | err
deriving DecidableEq, Repr

/-- `filter_params_func(list(params))` when a filter is supplied, the
raw combination unchanged otherwise; `none` is Python `None`. -/
def applyFilter {α : Type} (f : Option (List α → Option (List α)))
    (p : List α) : Option (List α) :=
  match f with
  | none => some p
  | some g => g p

/-- The body of the `for params in itertools.product(...)` loop of
`grid_parameters` for one raw combination `p`. -/
def processOne {α : Type} (strOf : α → String) (inj : String → α)
    (keys : List String) (yield_dict add_test_name : Bool)
    (f : Option (List α → Option (List α))) (p : List α) : StepRes α :=
  match applyFilter f p with
  | none => .drop
  | some params =>
    if yield_dict then
      match buildDictPy keys params with
      | none => .err
      | some d =>
        .emit (.dict (if add_test_name then
          dictInsert d "test_name" (inj (testName strOf params)) else d))
    else
      .emit (.list (if add_test_name then
        inj (testName strOf params) :: params else params))

/-- Runs the loop over the remaining raw combinations, collecting the
yielded items; the flag records whether iteration ended in `IndexError`
(items yielded before the error are kept, as a consumer of the Python
generator would have received them). -/
def gridAux {α : Type} (strOf : α → String) (inj : String → α)
    (keys : List String) (yd ad : Bool)
    (f : Option (List α → Option (List α))) :
    List (List α) → List (GridItem α) × Bool
  | [] => ([], false)
  | p :: rest =>
    match processOne strOf inj keys yd ad f p with
    | .drop => gridAux strOf inj keys yd ad f rest
    | .emit it =>
      let r := gridAux strOf inj keys yd ad f rest
      (it :: r.1, r.2)
    | .err => ([], true)

/-- `grid_parameters(parameters, yield_dict, add_test_name,
filter_params_func)`: the Cartesian product of the value iterables in
key order, each combination optionally rewritten/dropped by the filter,
then emitted as a list or dict, optionally with the synthesized test
name. -/
def grid_parameters {α : Type} (strOf : α → String) (inj : String → α)
    (parameters : List (String × List α)) (yield_dict add_test_name : Bool)
    (f : Option (List α → Option (List α))) : List (GridItem α) × Bool :=
  gridAux strOf inj (parameters.map Prod.fst) yield_dict add_test_name f
    (product (parameters.map Prod.snd))

/-- A nested-dictionary value: a leaf of payload type `α` or a nested
mapping (`MutableMapping` in the source's test). -/
inductive NVal (α : Type) where
  | leaf (a : α)
  | dict (entries : List (String × NVal α))

/-- The `items` list accumulated by `flatten_dict`: a leaf contributes
`(k, v)`, a nested mapping contributes the items of its own
`flatten_dict` (note the recursive call collapses duplicates with
`dict(...)` before extending). -/
def flattenItems {α : Type} : List (String × NVal α) → List (String × α)
  | [] => []
  | (k, .leaf a) :: rest => (k, a) :: flattenItems rest
  | (_, .dict sub) :: rest => dictOf (flattenItems sub) ++ flattenItems rest

/-- `flatten_dict(dictionary)` from the source: `dict(items)` over the
accumulated item list. -/
def flatten_dict {α : Type} (d : List (String × NVal α)) : List (String × α) :=
  dictOf (flattenItems d)

/-- The depth-first list of all leaf entries of a nested dictionary,
without any duplicate collapsing: the reference iteration order for the
"last occurrence wins" property. -/
def leafItems {α : Type} : List (String × NVal α) → List (String × α)
  | [] => []
  | (k, .leaf a) :: rest => (k, a) :: leafItems rest
  | (_, .dict sub) :: rest => leafItems sub ++ leafItems rest

/-- Concrete Python values for the spec's examples: integers and
strings, with their `str` conversion. -/
inductive PyVal where
  | pint (n : Int)
  | pstr (s : String)
deriving DecidableEq, Repr

/-- Python `str` on `PyVal`. -/
def pyStr : PyVal → String
  | .pint n => toString n
  | .pstr s => s

end TestingUtils

namespace TestingUtils

/-! ### Association-list dictionary lemmas -/

@[simp] theorem dictGet_nil {β : Type} (k : String) :
    dictGet ([] : List (String × β)) k = none := rfl

@[simp] theorem dictGet_cons {β : Type} (kv : String × β)
    (d : List (String × β)) (k : String) :
    dictGet (kv :: d) k = if kv.1 = k then some kv.2 else dictGet d k := by
  by_cases h : kv.1 = k <;> simp [dictGet, List.find?_cons, h]

theorem dictInsert_cons_eq {β : Type} (kv : String × β)
    (d : List (String × β)) (k : String) (v : β) (h : kv.1 = k) :
    dictInsert (kv :: d) k v = (kv.1, v) :: d := by
  obtain ⟨k', v'⟩ := kv
  rw [dictInsert]
  simp only at h
  simp [h]

theorem dictInsert_cons_ne {β : Type} (kv : String × β)
    (d : List (String × β)) (k : String) (v : β) (h : ¬ kv.1 = k) :
    dictInsert (kv :: d) k v = kv :: dictInsert d k v := by
  obtain ⟨k', v'⟩ := kv
  rw [dictInsert]
  simp only at h
  simp [h]

theorem mem_keys_dictInsert {β : Type} (d : List (String × β)) (k x : String)
    (v : β) :
    x ∈ (dictInsert d k v).map Prod.fst ↔ x = k ∨ x ∈ d.map Prod.fst := by
  induction d with
  | nil => simp [dictInsert, eq_comm]
  | cons kv rest ih =>
    by_cases h : kv.1 = k
    · rw [dictInsert_cons_eq kv rest k v h]
      subst h
      simp
    · rw [dictInsert_cons_ne kv rest k v h]
      simp [ih]
      tauto

theorem dictGet_dictInsert {β : Type} (d : List (String × β)) (k x : String)
    (v : β) :
    dictGet (dictInsert d k v) x = if x = k then some v else dictGet d x := by
  induction d with
  | nil => simp [dictInsert, eq_comm]
  | cons kv rest ih =>
    by_cases h : kv.1 = k
    · rw [dictInsert_cons_eq kv rest k v h]
      subst h
      by_cases hx : kv.1 = x
      · simp [hx, eq_comm]
      · have : ¬ x = kv.1 := fun he => hx he.symm
        simp [hx, this]
    · rw [dictInsert_cons_ne kv rest k v h]
      by_cases hx : kv.1 = x
      · have : ¬ x = k := fun he => h (hx.trans he)
        simp [hx, this]
      · simp [hx, ih]

theorem dictInsert_of_not_mem {β : Type} (d : List (String × β)) (k : String)
    (v : β) (h : k ∉ d.map Prod.fst) : dictInsert d k v = d ++ [(k, v)] := by
  induction d with
  | nil => rfl
  | cons kv rest ih =>
    simp only [List.map_cons, List.mem_cons, not_or] at h
    rw [dictInsert_cons_ne kv rest k v (fun he => h.1 he.symm), ih h.2]
    rfl

theorem nodup_keys_dictInsert {β : Type} (d : List (String × β)) (k : String)
    (v : β) (h : (d.map Prod.fst).Nodup) :
    ((dictInsert d k v).map Prod.fst).Nodup := by
  induction d with
  | nil => simp [dictInsert]
  | cons kv rest ih =>
    simp only [List.map_cons, List.nodup_cons] at h
    by_cases hk : kv.1 = k
    · rw [dictInsert_cons_eq kv rest k v hk]
      simp only [List.map_cons, List.nodup_cons]
      exact ⟨h.1, h.2⟩
    · rw [dictInsert_cons_ne kv rest k v hk]
      simp only [List.map_cons, List.nodup_cons]
      refine ⟨fun hmem => ?_, ih h.2⟩
      rw [mem_keys_dictInsert] at hmem
      rcases hmem with rfl | hmem
      · exact hk rfl
      · exact h.1 hmem

theorem dictGet_isSome_iff {β : Type} (d : List (String × β)) (k : String) :
    (dictGet d k).isSome ↔ k ∈ d.map Prod.fst := by
  induction d with
  | nil => simp
  | cons kv rest ih =>
    by_cases h : kv.1 = k
    · simp [h]
    · have : ¬ k = kv.1 := fun he => h he.symm
      simp [h, this, ih]

theorem lastGet_isSome_iff {β : Type} (d : List (String × β)) (k : String) :
    (lastGet d k).isSome ↔ k ∈ d.map Prod.fst := by
  induction d with
  | nil => simp [lastGet]
  | cons kv rest ih =>
    rw [lastGet]
    cases hrest : lastGet rest k with
    | some v => simp [hrest, ← ih]
    | none =>
      by_cases h : kv.1 = k
      · simp [hrest, h]
      · have : ¬ k = kv.1 := fun he => h he.symm
        simp [hrest, h, this, ← ih]

theorem lastGet_append {β : Type} (l1 l2 : List (String × β)) (k : String) :
    lastGet (l1 ++ l2) k =
      match lastGet l2 k with
      | some v => some v
      | none => lastGet l1 k := by
  induction l1 with
  | nil =>
    simp only [List.nil_append]
    cases h : lastGet l2 k <;> simp [lastGet, h]
  | cons kv rest ih =>
    rw [List.cons_append, lastGet, ih, lastGet]
    cases lastGet l2 k <;> cases lastGet rest k <;> simp

theorem dictOf_append_single {β : Type} (l : List (String × β))
    (kv : String × β) :
    dictOf (l ++ [kv]) = dictInsert (dictOf l) kv.1 kv.2 := by
  simp [dictOf, List.foldl_append]

theorem dictGet_dictOf {β : Type} (l : List (String × β)) (k : String) :
    dictGet (dictOf l) k = lastGet l k := by
  induction l using List.reverseRecOn with
  | nil => simp [dictOf, lastGet]
  | append_singleton l kv ih =>
    rw [dictOf_append_single, dictGet_dictInsert, lastGet_append, ih, lastGet]
    by_cases h : k = kv.1
    · simp [h, lastGet]
    · have : ¬ kv.1 = k := fun he => h he.symm
      simp [h, this, lastGet]

theorem nodup_keys_dictOf {β : Type} (l : List (String × β)) :
    ((dictOf l).map Prod.fst).Nodup := by
  induction l using List.reverseRecOn with
  | nil => simp [dictOf]
  | append_singleton l kv ih =>
    rw [dictOf_append_single]
    exact nodup_keys_dictInsert _ _ _ ih

theorem lastGet_eq_dictGet_of_nodup {β : Type} (d : List (String × β))
    (k : String) (h : (d.map Prod.fst).Nodup) : lastGet d k = dictGet d k := by
  induction d with
  | nil => simp [lastGet]
  | cons kv rest ih =>
    simp only [List.map_cons, List.nodup_cons] at h
    rw [lastGet, ih h.2]
    cases hrest : dictGet rest k with
    | some v =>
      have hk : k ∈ rest.map Prod.fst := by
        rw [← dictGet_isSome_iff, hrest]; rfl
      have : ¬ kv.1 = k := fun he => h.1 (he ▸ hk)
      simp [this, hrest]
    | none =>
      by_cases hkv : kv.1 = k <;> simp [hkv, hrest]

theorem lastGet_dictOf {β : Type} (l : List (String × β)) (k : String) :
    lastGet (dictOf l) k = lastGet l k := by
  rw [lastGet_eq_dictGet_of_nodup _ _ (nodup_keys_dictOf l), dictGet_dictOf]

theorem dictOf_of_nodup {β : Type} (l : List (String × β))
    (h : (l.map Prod.fst).Nodup) : dictOf l = l := by
  induction l using List.reverseRecOn with
  | nil => rfl
  | append_singleton l kv ih =>
    simp only [List.map_append, List.nodup_append] at h
    rw [dictOf_append_single, ih h.1]
    refine dictInsert_of_not_mem _ _ _ (fun hmem => ?_)
    exact h.2.2 hmem (by simp)
/-! ### Cartesian product lemmas -/

theorem length_product {α : Type} (ls : List (List α)) :
    (product ls).length = (ls.map List.length).prod := by
  induction ls with
  | nil => rfl
  | cons l rest ih =>
    simp [product, List.length_flatMap, ih, Nat.mul_comm,
      Function.comp_def, List.map_const]

theorem mem_product_iff {α : Type} (ls : List (List α)) (p : List α) :
    p ∈ product ls ↔ List.Forall₂ (fun v l => v ∈ l) p ls := by
  induction ls generalizing p with
  | nil =>
    simp [product, List.forall₂_nil_right_iff]
  | cons l rest ih =>
    simp only [product, List.mem_flatMap, List.mem_map,
      List.forall₂_cons_right_iff]
    constructor
    · rintro ⟨x, hx, xs, hxs, rfl⟩
      exact ⟨x, xs, hx, (ih xs).1 hxs, rfl⟩
    · rintro ⟨x, xs, hx, hxs, rfl⟩
      exact ⟨x, hx, xs, (ih xs).2 hxs, rfl⟩

theorem length_of_mem_product {α : Type} (ls : List (List α)) (p : List α)
    (h : p ∈ product ls) : p.length = ls.length :=
  ((mem_product_iff ls p).1 h).length_eq

theorem product_eq_nil_of_mem_nil {α : Type} (ls : List (List α))
    (h : [] ∈ ls) : product ls = [] := by
  induction ls with
  | nil => cases h
  | cons l rest ih =>
    rcases List.mem_cons.1 h with rfl | h
    · rfl
    · simp [product, ih h]

/-! ### The `yield_dict` assignment loop -/

theorem buildDictAux_eq_zip {α : Type} (keys : List String) (params : List α) :
    ∀ (i : Nat) (acc : List (String × α)), keys.length + i ≤ params.length →
      buildDictAux keys params i acc =
        some (List.foldl (fun d kv => dictInsert d kv.1 kv.2) acc
          (keys.zip (params.drop i))) := by
  induction keys with
  | nil => intro i acc _; simp [buildDictAux]
  | cons k ks ih =>
    intro i acc h
    have hi : i < params.length := by
      simp only [List.length_cons] at h
      omega
    rw [buildDictAux]
    rw [List.get?_eq_getElem?, List.getElem?_eq_getElem hi]
    rw [List.drop_eq_getElem_cons hi]
    simp only [List.zip_cons_cons, List.foldl_cons]
    exact ih (i + 1) _ (by simp only [List.length_cons] at h; omega)

theorem buildDictPy_eq_dictOf_zip {α : Type} (keys : List String)
    (params : List α) (h : keys.length ≤ params.length) :
    buildDictPy keys params = some (dictOf (keys.zip params)) := by
  rw [buildDictPy, buildDictAux_eq_zip keys params 0 [] (by omega)]
  rfl

theorem buildDictPy_short {α : Type} (k : String) (keys : List String) :
    buildDictPy (k :: keys) ([] : List α) = none := rfl

theorem keys_of_buildDictPy {α : Type} (keys : List String) (params : List α)
    (d : List (String × α)) (h : buildDictPy keys params = some d) :
    ∀ x ∈ d.map Prod.fst, x ∈ keys := by
  have haux : ∀ (ks : List String) (i : Nat) (acc : List (String × α))
      (d' : List (String × α)), buildDictAux ks params i acc = some d' →
      ∀ x ∈ d'.map Prod.fst, x ∈ acc.map Prod.fst ∨ x ∈ ks := by
    intro ks
    induction ks with
    | nil =>
      intro i acc d' hd x hx
      rw [buildDictAux] at hd
      cases hd
      exact Or.inl hx
    | cons k ksr ih =>
      intro i acc d' hd x hx
      rw [buildDictAux] at hd
      cases hv : params.get? i with
      | none => rw [hv] at hd; cases hd
      | some v =>
        rw [hv] at hd
        rcases ih (i + 1) _ _ hd x hx with hacc | hks
        · rw [mem_keys_dictInsert] at hacc
          rcases hacc with rfl | hacc
          · exact Or.inr (by simp)
          · exact Or.inl hacc
        · exact Or.inr (List.mem_cons_of_mem _ hks)
  intro x hx
  rcases haux keys 0 [] d h x hx with hacc | hk
  · cases hacc
  · exact hk

/-! ### The unfiltered generator -/

/-- The item `grid_parameters` yields for the (already filtered)
combination `q`: dict or list, with the optional test name. -/
def emitItem {α : Type} (strOf : α → String) (inj : String → α)
    (keys : List String) (yd ad : Bool) (q : List α) : GridItem α :=
  if yd then
    .dict (if ad then
      dictInsert (dictOf (keys.zip q)) "test_name" (inj (testName strOf q))
    else dictOf (keys.zip q))
  else
    .list (if ad then inj (testName strOf q) :: q else q)

theorem processOne_none {α : Type} (strOf : α → String) (inj : String → α)
    (keys : List String) (yd ad : Bool) (p : List α)
    (h : keys.length ≤ p.length) :
    processOne strOf inj keys yd ad none p =
      .emit (emitItem strOf inj keys yd ad p) := by
  rw [processOne, applyFilter]
  cases yd with
  | false => rfl
  | true =>
    simp only [if_pos]
    rw [buildDictPy_eq_dictOf_zip keys p h]
    rfl

theorem gridAux_none {α : Type} (strOf : α → String) (inj : String → α)
    (keys : List String) (yd ad : Bool) (prods : List (List α))
    (h : ∀ p ∈ prods, keys.length ≤ p.length) :
    gridAux strOf inj keys yd ad none prods =
      (prods.map (emitItem strOf inj keys yd ad), false) := by
  induction prods with
  | nil => rfl
  | cons p rest ih =>
    rw [gridAux, processOne_none strOf inj keys yd ad p (h p (by simp))]
    show (emitItem strOf inj keys yd ad p ::
      (gridAux strOf inj keys yd ad none rest).1,
      (gridAux strOf inj keys yd ad none rest).2) = _
    rw [ih (fun q hq => h q (List.mem_cons_of_mem _ hq))]
    simp

/-! ### Claims -/

/-- C1: with no filter function, `grid_parameters` emits exactly
`s1 * s2 * ... * sN` combinations (the product of the parameter sizes),
and (with `yield_dict=False, add_test_name=False`) each emitted item is
the ordered sequence of one value per parameter, in `ParameterSpace`
key order. -/
theorem grid_parameters_no_filter_count {α : Type} (strOf : α → String)
    (inj : String → α) (ps : List (String × List α)) (yd ad : Bool) :
    (grid_parameters strOf inj ps yd ad none).2 = false ∧
    (grid_parameters strOf inj ps yd ad none).1.length =
      (ps.map (fun kv => kv.2.length)).prod ∧
    ∀ it ∈ (grid_parameters strOf inj ps false false none).1,
      ∃ p : List α, it = .list p ∧ p.length = ps.length ∧
        List.Forall₂ (fun v l => v ∈ l) p (ps.map Prod.snd) := by
  have hlen : ∀ p ∈ product (ps.map Prod.snd),
      (ps.map Prod.fst).length ≤ p.length := by
    intro p hp
    rw [length_of_mem_product _ _ hp]
    simp
  rw [grid_parameters, grid_parameters, gridAux_none _ _ _ _ _ _ hlen,
    gridAux_none _ _ _ _ _ _ hlen]
  refine ⟨rfl, ?_, ?_⟩
  · simp [length_product, List.map_map, Function.comp_def]
  · intro it hit
    rw [List.mem_map] at hit
    obtain ⟨p, hp, rfl⟩ := hit
    refine ⟨p, rfl, ?_, (mem_product_iff _ _).1 hp⟩
    rw [length_of_mem_product _ _ hp]
    simp

/-- C4: on `parameters = {"a": [1, 2], "b": ["x", "y"]}` with
`yield_dict=False, add_test_name=True` and no filter, the generator
yields exactly `["1_x", 1, "x"], ["1_y", 1, "y"], ["2_x", 2, "x"],
["2_y", 2, "y"]` in that order, with no error. -/
theorem grid_parameters_example_ab :
    grid_parameters pyStr PyVal.pstr
      [("a", [.pint 1, .pint 2]), ("b", [.pstr "x", .pstr "y"])]
      false true none =
    ([.list [.pstr "1_x", .pint 1, .pstr "x"],
      .list [.pstr "1_y", .pint 1, .pstr "y"],
      .list [.pstr "2_x", .pint 2, .pstr "x"],
      .list [.pstr "2_y", .pint 2, .pstr "y"]], false) := by decide

theorem processOne_congr_filter {α : Type} (strOf : α → String)
    (inj : String → α) (keys : List String) (yd ad : Bool)
    (f1 f2 : Option (List α → Option (List α))) (p : List α)
    (h : applyFilter f1 p = applyFilter f2 p) :
    processOne strOf inj keys yd ad f1 p =
      processOne strOf inj keys yd ad f2 p := by
  rw [processOne, processOne, h]

theorem gridAux_congr_filter {α : Type} (strOf : α → String)
    (inj : String → α) (keys : List String) (yd ad : Bool)
    (f1 f2 : Option (List α → Option (List α))) (prods : List (List α))
    (h : ∀ p, applyFilter f1 p = applyFilter f2 p) :
    gridAux strOf inj keys yd ad f1 prods =
      gridAux strOf inj keys yd ad f2 prods := by
  induction prods with
  | nil => rfl
  | cons p rest ih =>
    rw [gridAux, gridAux, processOne_congr_filter _ _ _ _ _ _ _ _ (h p), ih]

/-- C6: calling `grid_parameters` with the identity function as
`filter_params_func` produces exactly the same output as calling it
with no filter function, for every parameter space and every setting of
`yield_dict` and `add_test_name`. -/
theorem grid_parameters_identity_filter {α : Type} (strOf : α → String)
    (inj : String → α) (ps : List (String × List α)) (yd ad : Bool) :
    grid_parameters strOf inj ps yd ad (some (fun p => some p)) =
      grid_parameters strOf inj ps yd ad none := by
  rw [grid_parameters, grid_parameters]
  exact gridAux_congr_filter _ _ _ _ _ _ _ _ (fun p => rfl)

/-- C7: if any parameter's value list is empty, the Cartesian product
is empty, so `grid_parameters` emits nothing (and raises no error),
whatever the flags and filter are. -/
theorem grid_parameters_empty_factor {α : Type} (strOf : α → String)
    (inj : String → α) (ps : List (String × List α)) (yd ad : Bool)
    (f : Option (List α → Option (List α))) (kv : String × List α)
    (hmem : kv ∈ ps) (hnil : kv.2 = []) :
    grid_parameters strOf inj ps yd ad f = ([], false) := by
  rw [grid_parameters, product_eq_nil_of_mem_nil]
  · rfl
  · rw [List.mem_map]
    exact ⟨kv, hmem, hnil⟩

theorem grid_parameters_empty_factor_witness :
    grid_parameters pyStr PyVal.pstr [("a", []), ("b", [.pint 1])]
      true true none = ([], false) :=
  grid_parameters_empty_factor pyStr PyVal.pstr _ true true none
    ("a", []) (by simp) rfl

/-- C8: `grid_parameters` is deterministic: two invocations with equal
arguments produce equal outputs (the embedding takes everything the
Python code reads as an explicit argument: there is no global state to
vary between calls). -/
theorem grid_parameters_deterministic {α : Type}
    (strOf strOf' : α → String) (inj inj' : String → α)
    (ps ps' : List (String × List α)) (yd yd' ad ad' : Bool)
    (f f' : Option (List α → Option (List α)))
    (h1 : strOf = strOf') (h2 : inj = inj') (h3 : ps = ps')
    (h4 : yd = yd') (h5 : ad = ad') (h6 : f = f') :
    grid_parameters strOf inj ps yd ad f =
      grid_parameters strOf' inj' ps' yd' ad' f' := by
  subst h1; subst h2; subst h3; subst h4; subst h5; subst h6; rfl

theorem grid_parameters_deterministic_witness :
    grid_parameters pyStr PyVal.pstr [("a", [.pint 1])] false true none =
      grid_parameters pyStr PyVal.pstr [("a", [.pint 1])] false true none :=
  grid_parameters_deterministic pyStr pyStr PyVal.pstr PyVal.pstr
    [("a", [.pint 1])] [("a", [.pint 1])] false false true true none none
    rfl rfl rfl rfl rfl rfl

theorem gridAux_all_drop {α : Type} (strOf : α → String) (inj : String → α)
    (keys : List String) (yd ad : Bool)
    (f : Option (List α → Option (List α))) (prods : List (List α))
    (h : ∀ p ∈ prods, applyFilter f p = none) :
    gridAux strOf inj keys yd ad f prods = ([], false) := by
  induction prods with
  | nil => rfl
  | cons p rest ih =>
    rw [gridAux, processOne, h p (by simp)]
    exact ih (fun q hq => h q (List.mem_cons_of_mem _ hq))

theorem gridAux_count_filtered {α : Type} (strOf : α → String)
    (inj : String → α) (keys : List String) (ad : Bool)
    (g : List α → Option (List α)) (prods : List (List α)) :
    (gridAux strOf inj keys false ad (some g) prods).1.length =
      (prods.filter (fun p => (g p).isSome)).length := by
  induction prods with
  | nil => rfl
  | cons p rest ih =>
    rw [gridAux, processOne]
    cases hg : applyFilter (some g) p with
    | none =>
      have : (g p).isSome = false := by
        rw [show applyFilter (some g) p = g p from rfl] at hg
        rw [hg]; rfl
      simp [List.filter_cons, this, ih]
    | some q =>
      have : (g p).isSome = true := by
        rw [show applyFilter (some g) p = g p from rfl] at hg
        rw [hg]; rfl
      simp only [List.filter_cons, this, if_pos]
      simp [ih]

/-- C5: a combination for which the filter returns the absence value
(`None`) is dropped: if the filter returns `None` on every combination
the output is empty, and in general (`yield_dict=False`) the number of
emitted items is the number of raw combinations the filter does not
reject. -/
theorem grid_parameters_filter_drops {α : Type} (strOf : α → String)
    (inj : String → α) (ps : List (String × List α)) (yd ad : Bool)
    (g : List α → Option (List α)) :
    ((∀ p, g p = none) →
      grid_parameters strOf inj ps yd ad (some g) = ([], false)) ∧
    (grid_parameters strOf inj ps false ad (some g)).1.length =
      ((product (ps.map Prod.snd)).filter (fun p => (g p).isSome)).length := by
  constructor
  · intro h
    rw [grid_parameters]
    exact gridAux_all_drop _ _ _ _ _ _ _ (fun p _ => h p)
  · rw [grid_parameters]
    exact gridAux_count_filtered _ _ _ _ _ _

theorem grid_parameters_filter_drops_witness :
    grid_parameters pyStr PyVal.pstr [("a", [.pint 1, .pint 2])] false true
      (some (fun _ => none)) = ([], false) :=
  (grid_parameters_filter_drops pyStr PyVal.pstr [("a", [.pint 1, .pint 2])]
    false true (fun _ => none)).1 (fun _ => rfl)


theorem dictGet_zip_get {α : Type} (keys : List String) :
    ∀ (params : List α), keys.Nodup →
      ∀ (i : Nat) (h : i < keys.length), i < params.length →
        dictGet (keys.zip params) (keys.get ⟨i, h⟩) = params.get? i := by
  induction keys with
  | nil => intro params _ i h; cases h
  | cons k ks ih =>
    intro params hnd i h hip
    cases params with
    | nil => cases hip
    | cons v vs =>
      simp only [List.nodup_cons] at hnd
      cases i with
      | zero => simp
      | succ j =>
        have hj : j < ks.length := Nat.lt_of_succ_lt_succ h
        have hget : (k :: ks).get ⟨j + 1, h⟩ = ks.get ⟨j, hj⟩ := rfl
        have hmem : ks.get ⟨j, hj⟩ ∈ ks := List.get_mem ks j hj
        have hne : ¬ k = ks.get ⟨j, hj⟩ := fun he => hnd.1 (he ▸ hmem)
        rw [hget, List.zip_cons_cons, dictGet_cons]
        simp only [if_neg hne]
        rw [ih vs hnd.2 j hj (Nat.lt_of_succ_lt_succ hip)]
        rfl

/-- C2 counterexample: with a parameter literally named `"test_name"`
and `add_test_name=True`, the assignment `res_dict["test_name"] =
test_name` overwrites the parameter's slot value, so the emitted
mapping does not hold the Cartesian-product slot value for that key:
the single combination is `[5]` but the mapping holds the string
`"5"`. -/
theorem grid_parameters_yield_dict_slots_ce :
    product [[PyVal.pint 5]] = [[PyVal.pint 5]] ∧
    (grid_parameters pyStr PyVal.pstr [("test_name", [.pint 5])]
        true true none).1 = [.dict [("test_name", .pstr "5")]] ∧
    dictGet [("test_name", PyVal.pstr "5")] "test_name" ≠
      some (PyVal.pint 5) := by decide

/-- C2 (amended): provided the parameter keys are distinct (as they are
in a Python dict) and no key is the literal `"test_name"` whenever
`add_test_name=True`, every item emitted by `grid_parameters` with
`yield_dict=True` and no filter is a mapping in which every original
parameter key is present, holding exactly the corresponding slot of
that item's Cartesian-product combination. -/
theorem grid_parameters_yield_dict_slots {α : Type} (strOf : α → String)
    (inj : String → α) (ps : List (String × List α)) (ad : Bool)
    (hnd : (ps.map Prod.fst).Nodup)
    (htn : ad = true → "test_name" ∉ ps.map Prod.fst) :
    ∀ (j : Nat), j < (grid_parameters strOf inj ps true ad none).1.length →
      ∃ (p : List α) (d : List (String × α)),
        (product (ps.map Prod.snd)).get? j = some p ∧
        (grid_parameters strOf inj ps true ad none).1.get? j =
          some (.dict d) ∧
        (∀ k ∈ ps.map Prod.fst, (dictGet d k).isSome) ∧
        ∀ (i : Nat) (h : i < (ps.map Prod.fst).length),
          dictGet d ((ps.map Prod.fst).get ⟨i, h⟩) = p.get? i := by
  have hlen : ∀ p ∈ product (ps.map Prod.snd),
      (ps.map Prod.fst).length ≤ p.length := by
    intro p hp
    rw [length_of_mem_product _ _ hp]
    simp
  intro j hj
  rw [grid_parameters, gridAux_none _ _ _ _ _ _ hlen] at hj ⊢
  rw [List.length_map] at hj
  have hpget : (product (ps.map Prod.snd)).get? j =
      some ((product (ps.map Prod.snd)).get ⟨j, hj⟩) := List.get?_eq_get hj
  generalize hp : (product (ps.map Prod.snd)).get ⟨j, hj⟩ = p at hpget
  have hpmem : p ∈ product (ps.map Prod.snd) := hp ▸ List.get_mem _ j hj
  have hplen : p.length = (ps.map Prod.fst).length := by
    rw [length_of_mem_product _ _ hpmem]
    simp
  have hzipfst : ((ps.map Prod.fst).zip p).map Prod.fst = ps.map Prod.fst :=
    List.map_fst_zip _ _ (by omega)
  have hd0 : dictOf ((ps.map Prod.fst).zip p) = (ps.map Prod.fst).zip p :=
    dictOf_of_nodup _ (by rw [hzipfst]; exact hnd)
  have hslot0 : ∀ (i : Nat) (h : i < (ps.map Prod.fst).length),
      dictGet ((ps.map Prod.fst).zip p) ((ps.map Prod.fst).get ⟨i, h⟩) =
        p.get? i := fun i h => dictGet_zip_get _ p hnd i h (by omega)
  have hitem : (List.map (emitItem strOf inj (ps.map Prod.fst) true ad)
      (product (ps.map Prod.snd))).get? j =
      some (emitItem strOf inj (ps.map Prod.fst) true ad p) := by
    rw [List.get?_map, hpget]
    rfl
  refine ⟨p, if ad then
      dictInsert ((ps.map Prod.fst).zip p) "test_name" (inj (testName strOf p))
    else (ps.map Prod.fst).zip p, hpget, ?_, ?_⟩
  · rw [hitem]
    cases ad with
    | false => simp [emitItem, hd0]
    | true => simp [emitItem, hd0]
  · have hslot : ∀ (i : Nat) (h : i < (ps.map Prod.fst).length),
        dictGet (if ad then
            dictInsert ((ps.map Prod.fst).zip p) "test_name"
              (inj (testName strOf p))
          else (ps.map Prod.fst).zip p) ((ps.map Prod.fst).get ⟨i, h⟩) =
          p.get? i := by
      intro i h
      cases ad with
      | false => simpa using hslot0 i h
      | true =>
        have hmem : (ps.map Prod.fst).get ⟨i, h⟩ ∈ ps.map Prod.fst :=
          List.get_mem _ i h
        have hne : ¬ (ps.map Prod.fst).get ⟨i, h⟩ = "test_name" :=
          fun he => (htn rfl) (he ▸ hmem)
        simp only [if_pos rfl, reduceIte]
        rw [dictGet_dictInsert]
        simp only [if_neg hne]
        exact hslot0 i h
    refine ⟨?_, hslot⟩
    intro k hk
    obtain ⟨i, hi⟩ := List.mem_iff_get.1 hk
    rw [← hi, hslot i.1 i.2]
    have : i.1 < p.length := by omega
    rw [List.get?_eq_get this]
    rfl

theorem grid_parameters_yield_dict_slots_witness :
    ∃ (p : List PyVal) (d : List (String × PyVal)),
      (product ([("a", [PyVal.pint 3])].map Prod.snd)).get? 0 = some p ∧
      (grid_parameters pyStr PyVal.pstr [("a", [.pint 3])]
          true true none).1.get? 0 = some (.dict d) ∧
      (∀ k ∈ [("a", [PyVal.pint 3])].map Prod.fst, (dictGet d k).isSome) ∧
      ∀ (i : Nat) (h : i < ([("a", [PyVal.pint 3])].map Prod.fst).length),
        dictGet d (([("a", [PyVal.pint 3])].map Prod.fst).get ⟨i, h⟩) =
          p.get? i :=
  grid_parameters_yield_dict_slots pyStr PyVal.pstr [("a", [.pint 3])] true
    (by decide) (fun _ => by decide) 0 (by decide)

/-- The rewriting of a `yield_dict=False` item that
`add_test_name=True` performs: prepend the `_`-joined text of the
emitted values (which are exactly the post-filter combination). -/
def withNameList {α : Type} (strOf : α → String) (inj : String → α) :
    GridItem α → GridItem α
  | .list es => .list (inj (testName strOf es) :: es)
  | .dict es => .dict es

/-- How a `yield_dict=True` item with the test name relates to the one
without it: the same entries built from some post-filter combination
`q`, plus exactly one appended `"test_name"` entry holding the
`_`-joined text of `q`. -/
def addsNameEntry {α : Type} (strOf : α → String) (inj : String → α)
    (keys : List String) (itT itF : GridItem α) : Prop :=
  ∃ (q : List α) (d : List (String × α)), buildDictPy keys q = some d ∧
    itF = .dict d ∧
    itT = .dict (d ++ [("test_name", inj (testName strOf q))])

theorem gridAux_list_addname {α : Type} (strOf : α → String)
    (inj : String → α) (keys : List String)
    (f : Option (List α → Option (List α))) (prods : List (List α)) :
    gridAux strOf inj keys false true f prods =
      ((gridAux strOf inj keys false false f prods).1.map
        (withNameList strOf inj),
       (gridAux strOf inj keys false false f prods).2) := by
  induction prods with
  | nil => rfl
  | cons p rest ih =>
    rw [gridAux, gridAux, processOne, processOne]
    cases applyFilter f p with
    | none => simpa using ih
    | some q =>
      show (GridItem.list (inj (testName strOf q) :: q) ::
          (gridAux strOf inj keys false true f rest).1,
        (gridAux strOf inj keys false true f rest).2) = _
      rw [ih]
      simp [withNameList]

theorem gridAux_dict_addname {α : Type} (strOf : α → String)
    (inj : String → α) (keys : List String)
    (f : Option (List α → Option (List α))) (prods : List (List α))
    (htn : "test_name" ∉ keys) :
    (gridAux strOf inj keys true true f prods).2 =
      (gridAux strOf inj keys true false f prods).2 ∧
    List.Forall₂ (addsNameEntry strOf inj keys)
      (gridAux strOf inj keys true true f prods).1
      (gridAux strOf inj keys true false f prods).1 := by
  induction prods with
  | nil => exact ⟨rfl, List.Forall₂.nil⟩
  | cons p rest ih =>
    rw [gridAux, gridAux, processOne, processOne]
    cases applyFilter f p with
    | none => simpa using ih
    | some q =>
      simp only [if_pos]
      cases hbd : buildDictPy keys q with
      | none => exact ⟨rfl, List.Forall₂.nil⟩
      | some d =>
        have hTN : "test_name" ∉ d.map Prod.fst :=
          fun hmem => htn (keys_of_buildDictPy keys q d hbd _ hmem)
        have hins : dictInsert d "test_name" (inj (testName strOf q)) =
            d ++ [("test_name", inj (testName strOf q))] :=
          dictInsert_of_not_mem _ _ _ hTN
        refine ⟨ih.1, List.Forall₂.cons ⟨q, d, hbd, rfl, by rw [hins]⟩ ih.2⟩

/-- C3 counterexample: with a parameter literally named `"test_name"`
and `yield_dict=True`, turning on `add_test_name` does NOT add an
entry: the assignment overwrites the existing key, so both runs emit a
one-entry mapping. -/
theorem grid_parameters_add_test_name_ce :
    (grid_parameters pyStr PyVal.pstr [("test_name", [.pint 0])]
        true true none).1 = [.dict [("test_name", .pstr "0")]] ∧
    (grid_parameters pyStr PyVal.pstr [("test_name", [.pint 0])]
        true false none).1 = [.dict [("test_name", .pint 0)]] ∧
    ¬ ([("test_name", PyVal.pstr "0")] : List (String × PyVal)).length =
        ([("test_name", PyVal.pint 0)] : List (String × PyVal)).length
          + 1 := by decide

/-- C3 (amended): `add_test_name=True` adds exactly one extra entry to
each emitted item — a prepended name element when `yield_dict=False`
(unconditionally), or an appended `"test_name"` key when
`yield_dict=True` provided no parameter key is the literal
`"test_name"` (otherwise that key is overwritten instead) — and the
added entry is the `_`-joined text of the (possibly filter-rewritten)
combination's values. -/
theorem grid_parameters_add_test_name_extra_entry {α : Type}
    (strOf : α → String) (inj : String → α)
    (ps : List (String × List α)) (f : Option (List α → Option (List α))) :
    (grid_parameters strOf inj ps false true f =
      ((grid_parameters strOf inj ps false false f).1.map
        (withNameList strOf inj),
       (grid_parameters strOf inj ps false false f).2)) ∧
    ("test_name" ∉ ps.map Prod.fst →
      (grid_parameters strOf inj ps true true f).2 =
        (grid_parameters strOf inj ps true false f).2 ∧
      List.Forall₂ (addsNameEntry strOf inj (ps.map Prod.fst))
        (grid_parameters strOf inj ps true true f).1
        (grid_parameters strOf inj ps true false f).1) := by
  constructor
  · rw [grid_parameters, grid_parameters]
    exact gridAux_list_addname _ _ _ _ _
  · intro htn
    rw [grid_parameters, grid_parameters]
    exact gridAux_dict_addname _ _ _ _ _ htn

theorem grid_parameters_add_test_name_extra_entry_witness :
    (grid_parameters pyStr PyVal.pstr [("a", [PyVal.pint 7])] false true none =
      ((grid_parameters pyStr PyVal.pstr [("a", [PyVal.pint 7])]
          false false none).1.map (withNameList pyStr PyVal.pstr),
       (grid_parameters pyStr PyVal.pstr [("a", [PyVal.pint 7])]
          false false none).2)) ∧
    ((grid_parameters pyStr PyVal.pstr [("a", [PyVal.pint 7])]
        true true none).2 =
      (grid_parameters pyStr PyVal.pstr [("a", [PyVal.pint 7])]
        true false none).2 ∧
    List.Forall₂
      (addsNameEntry pyStr PyVal.pstr ([("a", [PyVal.pint 7])].map Prod.fst))
      (grid_parameters pyStr PyVal.pstr [("a", [PyVal.pint 7])]
        true true none).1
      (grid_parameters pyStr PyVal.pstr [("a", [PyVal.pint 7])]
        true false none).1) :=
  ⟨(grid_parameters_add_test_name_extra_entry pyStr PyVal.pstr
      [("a", [PyVal.pint 7])] none).1,
   (grid_parameters_add_test_name_extra_entry pyStr PyVal.pstr
      [("a", [PyVal.pint 7])] none).2 (by decide)⟩

theorem product_ne_nil {α : Type} (ls : List (List α))
    (h : ∀ l ∈ ls, l ≠ []) : product ls ≠ [] := by
  intro hnil
  have hlen : (product ls).length = 0 := by rw [hnil]; rfl
  rw [length_product] at hlen
  have hpos : 0 < (ls.map List.length).prod := by
    refine List.prod_pos (fun n hn => ?_)
    rw [List.mem_map] at hn
    obtain ⟨l, hl, rfl⟩ := hn
    exact List.length_pos.2 (h l hl)
  omega

theorem gridAux_const_emit {α : Type} (strOf : α → String) (inj : String → α)
    (keys : List String) (yd ad : Bool)
    (f : Option (List α → Option (List α))) (c : GridItem α)
    (prods : List (List α))
    (h : ∀ p ∈ prods, processOne strOf inj keys yd ad f p = .emit c) :
    gridAux strOf inj keys yd ad f prods =
      (List.replicate prods.length c, false) := by
  induction prods with
  | nil => rfl
  | cons p rest ih =>
    rw [gridAux, h p (by simp)]
    show (c :: (gridAux strOf inj keys yd ad f rest).1,
      (gridAux strOf inj keys yd ad f rest).2) = _
    rw [ih (fun q hq => h q (List.mem_cons_of_mem _ hq))]
    rfl

/-- C10: a filter returning the EMPTY list (not `None`) does not drop
the combination.  With `yield_dict=False` every combination is emitted:
as `[""]` (just the empty test name, `"_".join([]) = ""`) when
`add_test_name=True`, and as `[]` otherwise.  With `yield_dict=True`
and at least one parameter (and a nonempty grid), `params[0]` on the
rewritten empty sequence is out of bounds: nothing is emitted and the
run ends in `IndexError`. -/
theorem grid_parameters_empty_filter_result {α : Type} (strOf : α → String)
    (inj : String → α) (ps : List (String × List α)) (ad : Bool) :
    (grid_parameters strOf inj ps false true (some (fun _ => some [])) =
      (List.replicate (ps.map (fun kv => kv.2.length)).prod
        (.list [inj ""]), false)) ∧
    (grid_parameters strOf inj ps false false (some (fun _ => some [])) =
      (List.replicate (ps.map (fun kv => kv.2.length)).prod (.list []),
        false)) ∧
    (ps ≠ [] → (∀ kv ∈ ps, kv.2 ≠ []) →
      grid_parameters strOf inj ps true ad (some (fun _ => some [])) =
        ([], true)) := by
  have hname : testName strOf ([] : List α) = "" := rfl
  have hlen : (product (ps.map Prod.snd)).length =
      (ps.map (fun kv => kv.2.length)).prod := by
    rw [length_product, List.map_map]
    rfl
  refine ⟨?_, ?_, ?_⟩
  · rw [grid_parameters, ← hlen]
    exact gridAux_const_emit _ _ _ _ _ _ _ _ (fun p _ => by
      rw [processOne]
      show StepRes.emit (.list [inj (testName strOf [])]) = _
      rw [hname])
  · rw [grid_parameters, ← hlen]
    exact gridAux_const_emit _ _ _ _ _ _ _ _ (fun p _ => rfl)
  · intro hne hfac
    rw [grid_parameters]
    cases hprods : product (ps.map Prod.snd) with
    | nil =>
      exact absurd hprods (product_ne_nil _ (fun l hl => by
        rw [List.mem_map] at hl
        obtain ⟨kv, hkv, rfl⟩ := hl
        exact hfac kv hkv))
    | cons p rest =>
      cases ps with
      | nil => exact absurd rfl hne
      | cons kv ps' =>
        rw [gridAux, processOne]
        rfl

theorem grid_parameters_empty_filter_result_witness :
    grid_parameters pyStr PyVal.pstr [("a", [PyVal.pint 1])] true true
      (some (fun _ => some [])) = ([], true) :=
  (grid_parameters_empty_filter_result pyStr PyVal.pstr
    [("a", [PyVal.pint 1])] true).2.2 (by decide)
    (fun kv hkv => by
      simp only [List.mem_singleton] at hkv
      rw [hkv]
      decide)

theorem lastGet_flattenItems {α : Type} (d : List (String × NVal α))
    (k : String) : lastGet (flattenItems d) k = lastGet (leafItems d) k := by
  induction d using flattenItems.induct with
  | case1 => rw [flattenItems, leafItems]
  | case2 k' a rest ih =>
    rw [flattenItems, leafItems, lastGet, lastGet, ih]
  | case3 k' sub rest ih1 ih2 =>
    rw [flattenItems, leafItems, lastGet_append, lastGet_append, ih2,
      lastGet_dictOf, ih1]

/-- C9: `flatten_dict` does not compose keys.  Its result maps `k` to
the value of the LAST leaf entry with key `k` in the depth-first
iteration order of the nested dictionary (`none`/absent when `k` only
occurs as the key of nested mappings, which are discarded), and the
keys of the result are exactly the keys of the depth-first leaf
entries. -/
theorem flatten_dict_last_leaf_wins {α : Type} (d : List (String × NVal α))
    (k : String) :
    dictGet (flatten_dict d) k = lastGet (leafItems d) k ∧
    (k ∈ (flatten_dict d).map Prod.fst ↔ k ∈ (leafItems d).map Prod.fst) := by
  have h1 : dictGet (flatten_dict d) k = lastGet (leafItems d) k := by
    rw [flatten_dict, dictGet_dictOf, lastGet_flattenItems]
  refine ⟨h1, ?_⟩
  rw [← dictGet_isSome_iff, ← lastGet_isSome_iff, h1]
